import Mathlib

/-!
Verification of the MPPI planning core in `src/mppiisaac/planner/mppi.py`.

The Python code is shallowly embedded over the reals: torch tensors of shape
`(K)`, `(T, nu)`, `(K, T, nu)` become functions out of `Fin K`, `Fin T`,
`Fin nu`; the external dynamics / running-cost collaborators (provided by the
physics backend, outside the planning core) are parameters of the embedded
functions.
-/

namespace Mppi

/-- Embedding of `_ensure_non_zero(cost, beta, factor)` =
`torch.exp(-factor * (cost - beta))` (mppi.py lines 11-12), applied
pointwise to a length-`K` cost vector. -/
noncomputable def ensure_non_zero {K : ℕ} (cost : Fin K → ℝ) (beta factor : ℝ) :
    Fin K → ℝ :=
  fun k => Real.exp (-factor * (cost k - beta))

/-- Embedding of `beta = torch.min(cost_total)` (mppi.py line 168) on a
nonempty length-`K` vector. -/
noncomputable def torchMin {K : ℕ} [NeZero K] (cost : Fin K → ℝ) : ℝ :=
  Finset.univ.inf' (Finset.univ_nonempty_iff.mpr ⟨⟨0, NeZero.pos K⟩⟩) cost

/-- Embedding of `eta = torch.sum(cost_total_non_zero)` where
`cost_total_non_zero = _ensure_non_zero(cost_total, beta, 1/self.lambda_)`
(mppi.py lines 169-171). -/
noncomputable def etaSum {K : ℕ} [NeZero K] (cost : Fin K → ℝ) (lam : ℝ) : ℝ :=
  ∑ k, ensure_non_zero cost (torchMin cost) (1 / lam) k

/-- Embedding of `self.omega = (1.0 / eta) * self.cost_total_non_zero`
(mppi.py line 172). -/
noncomputable def omegaWeights {K : ℕ} [NeZero K] (cost : Fin K → ℝ) (lam : ℝ) :
    Fin K → ℝ :=
  fun k => (1 / etaSum cost lam) * ensure_non_zero cost (torchMin cost) (1 / lam) k

theorem torchMin_le {K : ℕ} [NeZero K] (cost : Fin K → ℝ) (k : Fin K) :
    torchMin cost ≤ cost k :=
  Finset.inf'_le _ (Finset.mem_univ k)

theorem exists_eq_torchMin {K : ℕ} [NeZero K] (cost : Fin K → ℝ) :
    ∃ k, cost k = torchMin cost := by
  obtain ⟨k, _, hk⟩ := Finset.exists_mem_eq_inf'
    (Finset.univ_nonempty_iff.mpr ⟨(⟨0, NeZero.pos K⟩ : Fin K)⟩) cost
  exact ⟨k, hk.symm⟩

theorem torchMin_one (c : Fin 1 → ℝ) : torchMin c = c 0 := by
  apply le_antisymm (torchMin_le c 0)
  apply Finset.le_inf'
  intro k _
  fin_cases k
  exact le_refl _

theorem ensure_non_zero_pos {K : ℕ} (cost : Fin K → ℝ) (beta factor : ℝ)
    (k : Fin K) : 0 < ensure_non_zero cost beta factor k :=
  Real.exp_pos _

theorem one_le_etaSum {K : ℕ} [NeZero K] (cost : Fin K → ℝ) (lam : ℝ) :
    1 ≤ etaSum cost lam := by
  obtain ⟨k0, hk0⟩ := exists_eq_torchMin cost
  have hterm : ensure_non_zero cost (torchMin cost) (1 / lam) k0 = 1 := by
    simp [ensure_non_zero, hk0]
  calc (1 : ℝ) = ensure_non_zero cost (torchMin cost) (1 / lam) k0 := hterm.symm
    _ ≤ etaSum cost lam := by
        apply Finset.single_le_sum
        · intro k _
          exact (ensure_non_zero_pos cost _ _ k).le
        · exact Finset.mem_univ k0

theorem etaSum_pos {K : ℕ} [NeZero K] (cost : Fin K → ℝ) (lam : ℝ) :
    0 < etaSum cost lam :=
  lt_of_lt_of_le one_pos (one_le_etaSum cost lam)

theorem omegaWeights_nonneg {K : ℕ} [NeZero K] (cost : Fin K → ℝ) (lam : ℝ)
    (k : Fin K) : 0 ≤ omegaWeights cost lam k :=
  mul_nonneg (one_div_nonneg.mpr (etaSum_pos cost lam).le)
    (ensure_non_zero_pos cost _ _ k).le

theorem sum_omegaWeights {K : ℕ} [NeZero K] (cost : Fin K → ℝ) (lam : ℝ) :
    ∑ k, omegaWeights cost lam k = 1 := by
  have : ∑ k, omegaWeights cost lam k = (1 / etaSum cost lam) * etaSum cost lam := by
    rw [etaSum, Finset.mul_sum]
    rfl
  rw [this, one_div, inv_mul_cancel₀ (etaSum_pos cost lam).ne']

/-- Claim C10: for every cost vector of K finite entries and every lambda
greater than 0, the normalizer eta computed by `command()` satisfies
`eta >= 1` (the minimal-cost sample contributes `exp 0 = 1`), so the
division `(1.0 / eta)` in the weight normalization never divides by zero. -/
theorem etaSum_ge_one_and_ne_zero {K : ℕ} [NeZero K] (cost : Fin K → ℝ)
    (lam : ℝ) (hlam : 0 < lam) :
    1 ≤ etaSum cost lam ∧ etaSum cost lam ≠ 0 :=
  ⟨one_le_etaSum cost lam, (etaSum_pos cost lam).ne'⟩

/-- Witness for C10 at the concrete cost vector `[1, 2]`, `lambda = 1`. -/
theorem etaSum_ge_one_and_ne_zero_witness :
    1 ≤ etaSum ![(1 : ℝ), 2] 1 ∧ etaSum ![(1 : ℝ), 2] 1 ≠ 0 :=
  etaSum_ge_one_and_ne_zero ![(1 : ℝ), 2] 1 one_pos

/-- Claim C1: for every cost vector of K finite entries and every temperature
lambda greater than 0, the importance weights omega computed by `command()`
via the softmin transform are component-wise non-negative and sum to 1. -/
theorem omegaWeights_prob_dist {K : ℕ} [NeZero K] (cost : Fin K → ℝ)
    (lam : ℝ) (hlam : 0 < lam) :
    (∀ k, 0 ≤ omegaWeights cost lam k) ∧ ∑ k, omegaWeights cost lam k = 1 :=
  ⟨omegaWeights_nonneg cost lam, sum_omegaWeights cost lam⟩

/-- Witness for C1 at the concrete cost vector `[3, 5, 4]`, `lambda = 2`. -/
theorem omegaWeights_prob_dist_witness :
    (∀ k, 0 ≤ omegaWeights ![(3 : ℝ), 5, 4] 2 k) ∧
      ∑ k, omegaWeights ![(3 : ℝ), 5, 4] 2 k = 1 :=
  omegaWeights_prob_dist ![(3 : ℝ), 5, 4] 2 two_pos

theorem torchMin_add_const {K : ℕ} [NeZero K] (cost : Fin K → ℝ) (c : ℝ) :
    torchMin (fun k => cost k + c) = torchMin cost + c := by
  apply le_antisymm
  · obtain ⟨k0, hk0⟩ := exists_eq_torchMin cost
    calc torchMin (fun k => cost k + c) ≤ cost k0 + c :=
          torchMin_le (fun k => cost k + c) k0
      _ = torchMin cost + c := by rw [hk0]
  · apply Finset.le_inf'
    intro k _
    exact add_le_add_right (torchMin_le cost k) c

/-- Claim C4: for every cost vector and every constant c, the weights omega
produced by the softmin step on `cost + c` equal the weights produced on
`cost`: beta is the minimum, so subtracting it cancels the constant shift. -/
theorem omegaWeights_shift_invariant {K : ℕ} [NeZero K] (cost : Fin K → ℝ)
    (c lam : ℝ) :
    omegaWeights (fun k => cost k + c) lam = omegaWeights cost lam := by
  have hnz : ensure_non_zero (fun k => cost k + c) (torchMin fun k => cost k + c)
      (1 / lam) = ensure_non_zero cost (torchMin cost) (1 / lam) := by
    funext k
    rw [ensure_non_zero, ensure_non_zero, torchMin_add_const]
    ring_nf
  funext k
  rw [omegaWeights, omegaWeights, etaSum, etaSum, hnz]

/-- Witness for C4 at the concrete cost vector `[1, 2]`, shift `5`,
`lambda = 1`. -/
theorem omegaWeights_shift_invariant_witness :
    omegaWeights (fun k => ![(1 : ℝ), 2] k + 5) 1 = omegaWeights ![(1 : ℝ), 2] 1 :=
  omegaWeights_shift_invariant ![(1 : ℝ), 2] 5 1

/-- Embedding of `self.U = torch.roll(self.U, -1, dims=0)` (mppi.py line 160):
entry `t` of the rolled tensor is entry `(t + 1) mod T` of the original (the
`Fin T` addition wraps modulo `T`). -/
def torchRollNeg1 {T : ℕ} [NeZero T] {β : Type} (U : Fin T → β) : Fin T → β :=
  fun t => U (t + 1)

/-- Claim C6 counterexample: for `T = 2` and `U = [1, 2]`, the new last entry
after the shift is `U[0] = 1` (wrap-around of `torch.roll`), not the prior
value `2` that slot `T-1` held before the shift, contrary to the claim. -/
theorem torchRollNeg1_last_ne_prior_slot :
    ¬ torchRollNeg1 ![(1 : ℚ), 2] 1 = ![(1 : ℚ), 2] 1 := by
  simp [torchRollNeg1]

/-- Claim C6 amended: the shift performed at the start of every `command()`
cycle is a cyclic left rotation: new `U[t]` equals old `U[(t+1) mod T]`; in
particular for `t < T-1` the new `U[t]` is the old `U[t+1]`, and the new last
entry `U[T-1]` is the OLD FIRST entry `U[0]` (the rotated-out entry wraps
around), not the value slot `T-1` held before the shift. -/
theorem torchRollNeg1_spec {T : ℕ} [NeZero T] {β : Type} (U : Fin T → β) :
    (∀ t : Fin T,
        torchRollNeg1 U t = U ⟨(t.val + 1) % T, Nat.mod_lt _ (NeZero.pos T)⟩) ∧
      torchRollNeg1 U ⟨T - 1, Nat.sub_lt (NeZero.pos T) one_pos⟩ =
        U ⟨0, NeZero.pos T⟩ := by
  have key : ∀ t : Fin T,
      torchRollNeg1 U t = U ⟨(t.val + 1) % T, Nat.mod_lt _ (NeZero.pos T)⟩ := by
    intro t
    unfold torchRollNeg1
    congr 1
    apply Fin.ext
    rw [Fin.add_def]
    simp [Fin.val_one']
  refine ⟨key, ?_⟩
  rw [key ⟨T - 1, Nat.sub_lt (NeZero.pos T) one_pos⟩]
  congr 1
  apply Fin.ext
  show (T - 1 + 1) % T = 0
  rw [Nat.sub_add_cancel (NeZero.pos T), Nat.mod_self]

/-- Witness for the amended C6 at `T = 2`, `U = [10, 20]`. -/
theorem torchRollNeg1_spec_witness :
    (∀ t : Fin 2,
        torchRollNeg1 ![(10 : ℚ), 20] t =
          ![(10 : ℚ), 20] ⟨(t.val + 1) % 2, Nat.mod_lt _ (NeZero.pos 2)⟩) ∧
      torchRollNeg1 ![(10 : ℚ), 20] ⟨2 - 1, Nat.sub_lt (NeZero.pos 2) one_pos⟩ =
        ![(10 : ℚ), 20] ⟨0, NeZero.pos 2⟩ :=
  torchRollNeg1_spec ![(10 : ℚ), 20]

/-- Embedding of `_bound_action` (mppi.py lines 301-304):
`torch.max(torch.min(action, self.u_max), self.u_min)` applied elementwise
with the scalar bounds of the configuration. -/
noncomputable def bound_action (u_max u_min x : ℝ) : ℝ := max (min x u_max) u_min

/-- Embedding of the unbiased sample variance `c.var(dim=0)` across the M
rollout replicas (mppi.py line 249; torch defaults to the unbiased estimator,
dividing by `M - 1`). -/
noncomputable def torchVar {M : ℕ} (c : Fin M → ℝ) : ℝ :=
  (∑ m, (c m - (∑ m', c m') / M) ^ 2) / (M - 1)

/-- Embedding of the per-step input action of the horizon loop (mppi.py lines
233-239): `u = self.u_scale * perturbed_actions[:, t]`, with the last sample
`K - 1` overwritten by the zero action when `sample_null_action` is set (the
braking maneuver). -/
noncomputable def stepInput {K nu : ℕ} (u_scale : ℝ) (nullAct : Bool)
    (perturbed : Fin K → ℕ → Fin nu → ℝ) (t : ℕ) (k : Fin K) : Fin nu → ℝ :=
  if nullAct ∧ k.val = K - 1 then fun _ => 0 else fun i => u_scale * perturbed k t i

/-- Accumulator of the horizon loop of `_compute_rollout_costs` (mppi.py lines
226-253): the current state batch (M x K), the running per-sample cost sums
`cost_samples` (M x K), the running variance penalty `cost_var` (K), and the
recorded action tensor `self.perturbed_action` (K x T x nu), overwritten at
step t with the effective action returned by the dynamics collaborator (line
245; that assignment broadcasts an (M, K, nu) tensor into a (K, nu) slot,
which is well-formed for M = 1 — we record the replica at index 0). -/
structure RollAcc (σ : Type) (M K nu : ℕ) where
  st : Fin M → Fin K → σ
  cost_samples : Fin M → Fin K → ℝ
  cost_var : Fin K → ℝ
  recAct : Fin K → ℕ → Fin nu → ℝ

/-- Embedding of the horizon loop `for t in range(T)` of
`_compute_rollout_costs` (mppi.py lines 232-253). The external dynamics
collaborator is the elementwise `dyn : state -> action -> (next_state,
effective_action)` and the external running cost is the elementwise
`running_cost : state -> cost`, both applied across the (M x K) batch. -/
noncomputable def rolloutLoop (σ : Type) (M K nu : ℕ) [NeZero M]
    (dyn : σ → (Fin nu → ℝ) → σ × (Fin nu → ℝ)) (running_cost : σ → ℝ)
    (u_scale : ℝ) (nullAct : Bool) (var_discount : ℝ)
    (perturbed : Fin K → ℕ → Fin nu → ℝ) (init : RollAcc σ M K nu) :
    ℕ → RollAcc σ M K nu
  | 0 => init
  | t + 1 =>
    let A := rolloutLoop σ M K nu dyn running_cost u_scale nullAct var_discount
      perturbed init t
    let u : Fin M → Fin K → Fin nu → ℝ := fun _ k => stepInput u_scale nullAct perturbed t k
    let stepOut : Fin M → Fin K → σ × (Fin nu → ℝ) := fun m k => dyn (A.st m k) (u m k)
    let c : Fin M → Fin K → ℝ := fun m k => running_cost (stepOut m k).1
    { st := fun m k => (stepOut m k).1
      cost_samples := fun m k => A.cost_samples m k + c m k
      cost_var := fun k => A.cost_var k +
        (if 1 < M then torchVar (fun m => c m k) * var_discount ^ t else 0)
      recAct := fun k t' i =>
        if t' = t then (stepOut ⟨0, NeZero.pos M⟩ k).2 i else A.recAct k t' i }

/-- Embedding of `_compute_rollout_costs(perturbed_actions)` (mppi.py lines
212-266) for a single initial state `s0` (replicated over the K samples and
then over the M rollout replicas, lines 224-227). Returns the final
`cost_total = cost_samples.mean(dim=0) + cost_var * rollout_var_cost` (lines
264-265) together with the recorded `self.perturbed_action` tensor.
`self.terminal_state_cost` is `None` throughout mppi.py (set at line 134 and
never reassigned), so the terminal-cost branch at lines 261-263 adds
nothing. -/
noncomputable def compute_rollout_costs (σ : Type) (M K nu : ℕ) [NeZero M]
    (dyn : σ → (Fin nu → ℝ) → σ × (Fin nu → ℝ)) (running_cost : σ → ℝ)
    (u_scale : ℝ) (nullAct : Bool) (var_discount var_cost : ℝ) (s0 : σ)
    (perturbed : Fin K → ℕ → Fin nu → ℝ) (T : ℕ) :
    (Fin K → ℝ) × (Fin K → ℕ → Fin nu → ℝ) :=
  let init : RollAcc σ M K nu :=
    { st := fun _ _ => s0
      cost_samples := fun _ _ => 0
      cost_var := fun _ => 0
      recAct := perturbed }
  let A := rolloutLoop σ M K nu dyn running_cost u_scale nullAct var_discount
    perturbed init T
  (fun k => (∑ m, A.cost_samples m k) / M + A.cost_var k * var_cost, A.recAct)

/-- Direct manual trajectory of the single sample, written the way the spec
describes it: the state after step t+1 is obtained by applying the dynamics
collaborator to the state after step t and the scaled action of step t. -/
noncomputable def manualState {σ : Type} {nu : ℕ}
    (dyn : σ → (Fin nu → ℝ) → σ × (Fin nu → ℝ)) (u_scale : ℝ)
    (perturbed : ℕ → Fin nu → ℝ) (s0 : σ) : ℕ → σ
  | 0 => s0
  | t + 1 =>
    (dyn (manualState dyn u_scale perturbed s0 t) (fun i => u_scale * perturbed t i)).1

theorem rolloutLoop_single (σ : Type) (nu : ℕ)
    (dyn : σ → (Fin nu → ℝ) → σ × (Fin nu → ℝ)) (running_cost : σ → ℝ)
    (u_scale var_discount : ℝ) (s0 : σ) (perturbed : Fin 1 → ℕ → Fin nu → ℝ)
    (init : RollAcc σ 1 1 nu)
    (hst : ∀ m k, init.st m k = s0) (hcs : ∀ m k, init.cost_samples m k = 0) :
    ∀ t : ℕ, ∀ m k,
      (rolloutLoop σ 1 1 nu dyn running_cost u_scale false var_discount
          perturbed init t).st m k =
        manualState dyn u_scale (perturbed 0) s0 t ∧
      (rolloutLoop σ 1 1 nu dyn running_cost u_scale false var_discount
          perturbed init t).cost_samples m k =
        ∑ j ∈ Finset.range t, running_cost
          (manualState dyn u_scale (perturbed 0) s0 (j + 1)) := by
  intro t
  induction t with
  | zero =>
    intro m k
    exact ⟨hst m k, by simpa using hcs m k⟩
  | succ t ih =>
    intro m k
    have hk : k = 0 := Subsingleton.elim k 0
    have hstep : stepInput u_scale false perturbed t k = fun i => u_scale * perturbed 0 t i := by
      rw [stepInput, if_neg]
      · rw [hk]
      · simp
    obtain ⟨ihst, ihcs⟩ := ih m k
    constructor
    · show (dyn ((rolloutLoop σ 1 1 nu dyn running_cost u_scale false
          var_discount perturbed init t).st m k)
          (stepInput u_scale false perturbed t k)).1 = _
      rw [ihst, hstep]
      conv_rhs => rw [manualState]
    · show (rolloutLoop σ 1 1 nu dyn running_cost u_scale false var_discount
            perturbed init t).cost_samples m k +
          running_cost (dyn ((rolloutLoop σ 1 1 nu dyn running_cost u_scale
            false var_discount perturbed init t).st m k)
            (stepInput u_scale false perturbed t k)).1 = _
      rw [ihst, ihcs, hstep, Finset.sum_range_succ]
      conv_rhs => rw [manualState]

/-- Claim C5: for K = 1, M = 1, no terminal-cost collaborator,
rollout_var_cost = 0, and a deterministic elementwise dynamics/running-cost
collaborator, the cost_total returned by `_compute_rollout_costs` equals the
sum over horizon steps t = 0..T-1 of the per-step running costs of the
successively computed next states along that single trajectory. -/
theorem rollout_consistency (σ : Type) (nu : ℕ)
    (dyn : σ → (Fin nu → ℝ) → σ × (Fin nu → ℝ)) (running_cost : σ → ℝ)
    (u_scale var_discount : ℝ) (s0 : σ) (perturbed : Fin 1 → ℕ → Fin nu → ℝ)
    (T : ℕ) :
    (compute_rollout_costs σ 1 1 nu dyn running_cost u_scale false
        var_discount 0 s0 perturbed T).1 0 =
      ∑ t ∈ Finset.range T, running_cost
        (manualState dyn u_scale (perturbed 0) s0 (t + 1)) := by
  have h := rolloutLoop_single σ nu dyn running_cost u_scale var_discount s0
    perturbed
    { st := fun _ _ => s0
      cost_samples := fun _ _ => 0
      cost_var := fun _ => 0
      recAct := perturbed }
    (fun _ _ => rfl) (fun _ _ => rfl) T 0 0
  show (∑ m, _) / ((1 : ℕ) : ℝ) + _ * (0 : ℝ) = _
  rw [Fin.sum_univ_one, h.2]
  push_cast
  rw [mul_zero, add_zero, div_one]

/-- Embedding of the clipped perturbed actions
`self.perturbed_action = self._bound_action(self.U + self.noise)`
(mppi.py lines 272-276), indexed with a natural-number step (steps at or
beyond the horizon are never read by the loop). -/
noncomputable def perturbedClipped (K T nu : ℕ) (u_max u_min : ℝ)
    (U : Fin T → Fin nu → ℝ) (noise : Fin K → Fin T → Fin nu → ℝ) :
    Fin K → ℕ → Fin nu → ℝ := fun k t i =>
  if h : t < T then bound_action u_max u_min (U ⟨t, h⟩ i + noise k ⟨t, h⟩ i)
  else 0

/-- Embedding of `_compute_total_cost_batch` (mppi.py lines 268-299). The
noise batch drawn at line 271 is an explicit input (it is the random input of
the planning cycle) and `U` is the current nominal sequence `self.U`. The
perturbed actions `self.U + self.noise` are bounded (lines 272-276), the
rollout is run on them, and the noise is then recomputed as
`self.noise = self.perturbed_action - self.U` (line 284) before the
perturbation cost `sum(self.U * action_cost, dim=(1,2))` is added (lines
286-298). Returns the final `self.cost_total` and the recomputed
`self.noise`. -/
noncomputable def compute_total_cost_batch (σ : Type) (M K T nu : ℕ) [NeZero M]
    (dyn : σ → (Fin nu → ℝ) → σ × (Fin nu → ℝ)) (running_cost : σ → ℝ)
    (u_scale : ℝ) (nullAct : Bool) (var_discount var_cost lam : ℝ)
    (noise_abs_cost : Bool) (sigma_inv : Fin nu → Fin nu → ℝ)
    (u_max u_min : ℝ) (s0 : σ) (U : Fin T → Fin nu → ℝ)
    (noise : Fin K → Fin T → Fin nu → ℝ) :
    (Fin K → ℝ) × (Fin K → Fin T → Fin nu → ℝ) :=
  let R := compute_rollout_costs σ M K nu dyn running_cost u_scale nullAct
    var_discount var_cost s0 (perturbedClipped K T nu u_max u_min U noise) T
  let noiseB : Fin K → Fin T → Fin nu → ℝ := fun k t i => R.2 k t.val i - U t i
  let action_cost : Fin K → Fin T → Fin nu → ℝ := fun k t i =>
    lam * ∑ j, (if noise_abs_cost then |noiseB k t j| else noiseB k t j) *
      sigma_inv j i
  let perturbation_cost : Fin K → ℝ := fun k => ∑ t, ∑ i, U t i * action_cost k t i
  (fun k => R.1 k + perturbation_cost k, noiseB)

/-- Embedding of `command(state)` (mppi.py lines 154-204): shift `U` left,
compute the total costs and the bounded noise, form the softmin weights, add
the omega-weighted noise to every `U[t]` (lines 174-175), apply the
null-action override (lines 177-179) and the optional Savitzky-Golay
smoothing (lines 181-196; the scipy filter, an external library call, is the
function parameter `sgFilter`) to the local variable `action` — and then,
exactly as the source line 199 `action = self.U[: self.u_per_command]` does,
return the first `u_per_command` rows re-extracted from the updated nominal
sequence `self.U`, which discards the two preceding assignments to
`action`. -/
noncomputable def command (σ : Type) (M K T nu uPerCommand : ℕ) [NeZero M]
    [NeZero K] [NeZero T]
    (dyn : σ → (Fin nu → ℝ) → σ × (Fin nu → ℝ)) (running_cost : σ → ℝ)
    (u_scale : ℝ) (nullAct filter_u : Bool)
    (var_discount var_cost lam : ℝ) (noise_abs_cost : Bool)
    (sigma_inv : Fin nu → Fin nu → ℝ) (u_max u_min : ℝ) (s0 : σ)
    (sgFilter : (Fin T → Fin nu → ℝ) → Fin T → Fin nu → ℝ)
    (U0 : Fin T → Fin nu → ℝ) (noise : Fin K → Fin T → Fin nu → ℝ) :
    List (Fin nu → ℝ) :=
  let U1 := torchRollNeg1 U0
  let CB := compute_total_cost_batch σ M K T nu dyn running_cost u_scale
    nullAct var_discount var_cost lam noise_abs_cost sigma_inv u_max u_min s0
    U1 noise
  let omega := omegaWeights CB.1 lam
  let U2 : Fin T → Fin nu → ℝ := fun t i => U1 t i + ∑ k, omega k * CB.2 k t i
  let action : Fin T → Fin nu → ℝ :=
    if nullAct ∧ CB.1 ⟨K - 1, Nat.sub_lt (NeZero.pos K) one_pos⟩ ≤ 0.01 then
      fun _ _ => 0
    else U2
  let action2 : Fin T → Fin nu → ℝ := if filter_u then sgFilter action else action
  (List.ofFn U2).take uPerCommand

theorem bound_action_mem (u_max u_min x : ℝ) (h : u_min ≤ u_max) :
    u_min ≤ bound_action u_max u_min x ∧ bound_action u_max u_min x ≤ u_max :=
  ⟨le_max_right _ _, max_le (min_le_right x u_max) h⟩

theorem rolloutLoop_recAct (σ : Type) (M K nu : ℕ) [NeZero M]
    (dyn : σ → (Fin nu → ℝ) → σ × (Fin nu → ℝ)) (running_cost : σ → ℝ)
    (u_scale : ℝ) (nullAct : Bool) (var_discount : ℝ)
    (perturbed : Fin K → ℕ → Fin nu → ℝ) (init : RollAcc σ M K nu)
    (hdyn : ∀ s a, (dyn s a).2 = a) :
    ∀ N t, t < N → ∀ (k : Fin K) (i : Fin nu),
      (rolloutLoop σ M K nu dyn running_cost u_scale nullAct var_discount
          perturbed init N).recAct k t i =
        stepInput u_scale nullAct perturbed t k i := by
  intro N
  induction N with
  | zero => exact fun t ht => absurd ht (Nat.not_lt_zero t)
  | succ N ih =>
    intro t ht k i
    show (if t = N then (dyn _ _).2 i else _) = _
    by_cases h : t = N
    · subst h
      rw [if_pos rfl, hdyn]
    · rw [if_neg h]
      exact ih t (by omega) k i

/-- The list returned by the embedded `command` consists of the first
`u_per_command` rows of the updated nominal sequence, and — when the dynamics
collaborator returns its input action unchanged — each entry of that sequence
is the omega-weighted sum of the per-sample step inputs (the clipped, scaled,
null-overridden perturbed actions). -/
theorem command_entries (σ : Type) (M K T nu uPerCommand : ℕ)
    [NeZero M] [NeZero K] [NeZero T]
    (dyn : σ → (Fin nu → ℝ) → σ × (Fin nu → ℝ)) (running_cost : σ → ℝ)
    (u_scale : ℝ) (nullAct filter_u : Bool)
    (var_discount var_cost lam : ℝ) (noise_abs_cost : Bool)
    (sigma_inv : Fin nu → Fin nu → ℝ) (u_max u_min : ℝ) (s0 : σ)
    (sgFilter : (Fin T → Fin nu → ℝ) → Fin T → Fin nu → ℝ)
    (U0 : Fin T → Fin nu → ℝ) (noise : Fin K → Fin T → Fin nu → ℝ)
    (hdyn : ∀ s a, (dyn s a).2 = a) :
    command σ M K T nu uPerCommand dyn running_cost u_scale nullAct filter_u
        var_discount var_cost lam noise_abs_cost sigma_inv u_max u_min s0
        sgFilter U0 noise =
      (List.ofFn fun (t : Fin T) (i : Fin nu) =>
        ∑ k, omegaWeights
            (compute_total_cost_batch σ M K T nu dyn running_cost u_scale
              nullAct var_discount var_cost lam noise_abs_cost sigma_inv u_max
              u_min s0 (torchRollNeg1 U0) noise).1 lam k *
          stepInput u_scale nullAct
            (perturbedClipped K T nu u_max u_min (torchRollNeg1 U0) noise)
            t.val k i).take uPerCommand := by
  refine congrArg (List.take uPerCommand) (congrArg List.ofFn (funext fun t => funext fun i => ?_))
  show torchRollNeg1 U0 t i + ∑ k, _ * _ = _
  set U1 := torchRollNeg1 U0 with hU1
  set pa := perturbedClipped K T nu u_max u_min U1 noise with hpa
  set ω := omegaWeights
      (compute_total_cost_batch σ M K T nu dyn running_cost u_scale nullAct
        var_discount var_cost lam noise_abs_cost sigma_inv u_max u_min s0 U1
        noise).1 lam with hω
  have hrec : ∀ (k : Fin K),
      (compute_rollout_costs σ M K nu dyn running_cost u_scale nullAct
          var_discount var_cost s0 pa T).2 k t.val i =
        stepInput u_scale nullAct pa t.val k i :=
    fun k => rolloutLoop_recAct σ M K nu dyn running_cost u_scale nullAct
      var_discount pa _ hdyn T t.val t.isLt k i
  have hterm : ∀ k : Fin K,
      ω k * (compute_total_cost_batch σ M K T nu dyn running_cost u_scale
          nullAct var_discount var_cost lam noise_abs_cost sigma_inv u_max
          u_min s0 U1 noise).2 k t i =
        ω k * stepInput u_scale nullAct pa t.val k i - ω k * U1 t i := by
    intro k
    have hCB2 : (compute_total_cost_batch σ M K T nu dyn running_cost u_scale
        nullAct var_discount var_cost lam noise_abs_cost sigma_inv u_max u_min
        s0 U1 noise).2 k t i =
        (compute_rollout_costs σ M K nu dyn running_cost u_scale nullAct
          var_discount var_cost s0 pa T).2 k t.val i - U1 t i := rfl
    rw [hCB2, hrec k, mul_sub]
  rw [Finset.sum_congr rfl fun k _ => hterm k, Finset.sum_sub_distrib,
    ← Finset.sum_mul, sum_omegaWeights, one_mul]
  ring

theorem convex_combination_mem (K : ℕ) [NeZero K] (ω x : Fin K → ℝ) (lo hi : ℝ)
    (hω : ∀ k, 0 ≤ ω k) (hsum : ∑ k, ω k = 1)
    (hx : ∀ k, lo ≤ x k ∧ x k ≤ hi) :
    lo ≤ ∑ k, ω k * x k ∧ ∑ k, ω k * x k ≤ hi := by
  constructor
  · calc lo = (∑ k, ω k) * lo := by rw [hsum, one_mul]
      _ = ∑ k, ω k * lo := by rw [Finset.sum_mul]
      _ ≤ ∑ k, ω k * x k :=
          Finset.sum_le_sum fun k _ =>
            mul_le_mul_of_nonneg_left (hx k).1 (hω k)
  · calc ∑ k, ω k * x k ≤ ∑ k, ω k * hi :=
          Finset.sum_le_sum fun k _ =>
            mul_le_mul_of_nonneg_left (hx k).2 (hω k)
      _ = (∑ k, ω k) * hi := by rw [Finset.sum_mul]
      _ = hi := by rw [hsum, one_mul]

/-- Claim C2, amended: with the filtering semantics as implemented (the
returned action is re-extracted from the updated nominal sequence `self.U`),
and provided `u_scale = 1` and the dynamics collaborator returns its input
action unchanged — so that the perturbed-action tensor recorded by the
rollout at line 245 still holds the clipped perturbed actions — every element
of the action returned by `command()` lies in `[u_min, u_max]`: the noise
used in the update is recomputed as the clipped (and, for the null sample,
zeroed) perturbed action minus `U`, and adding the omega-weighted sum of that
noise to `U` yields a convex combination of in-bounds actions
(`u_min ≤ 0 ≤ u_max` is guaranteed by the construction-time assertion
`u_max > 0 and u_min < 0`). Without those provisos the invariant is false:
see the counterexample with `u_scale = 2`. -/
theorem command_action_bounded (σ : Type) (M K T nu uPerCommand : ℕ)
    [NeZero M] [NeZero K] [NeZero T]
    (dyn : σ → (Fin nu → ℝ) → σ × (Fin nu → ℝ)) (running_cost : σ → ℝ)
    (u_scale : ℝ) (nullAct filter_u : Bool)
    (var_discount var_cost lam : ℝ) (noise_abs_cost : Bool)
    (sigma_inv : Fin nu → Fin nu → ℝ) (u_max u_min : ℝ) (s0 : σ)
    (sgFilter : (Fin T → Fin nu → ℝ) → Fin T → Fin nu → ℝ)
    (U0 : Fin T → Fin nu → ℝ) (noise : Fin K → Fin T → Fin nu → ℝ)
    (hdyn : ∀ s a, (dyn s a).2 = a) (hscale : u_scale = 1)
    (hmin : u_min ≤ 0) (hmax : 0 ≤ u_max) :
    ∀ v ∈ command σ M K T nu uPerCommand dyn running_cost u_scale nullAct
        filter_u var_discount var_cost lam noise_abs_cost sigma_inv u_max
        u_min s0 sgFilter U0 noise,
      ∀ i, u_min ≤ v i ∧ v i ≤ u_max := by
  intro v hv i
  have hmm : u_min ≤ u_max := hmin.trans hmax
  rw [command_entries σ M K T nu uPerCommand dyn running_cost u_scale nullAct
    filter_u var_discount var_cost lam noise_abs_cost sigma_inv u_max u_min s0
    sgFilter U0 noise hdyn] at hv
  obtain ⟨t, rfl⟩ := (List.mem_ofFn _ _).mp (List.mem_of_mem_take hv)
  apply convex_combination_mem
  · exact omegaWeights_nonneg _ lam
  · exact sum_omegaWeights _ lam
  · intro k
    rw [stepInput]
    by_cases h : (nullAct : Prop) ∧ k.val = K - 1
    · rw [if_pos h]
      exact ⟨hmin, hmax⟩
    · rw [if_neg h, hscale, one_mul, perturbedClipped]
      simp only [t.isLt, dif_pos]
      exact bound_action_mem u_max u_min _ hmm

/-- Witness for C2 at a one-dimensional, one-sample, one-step instance with
identity-action dynamics, zero running cost, bounds [-1, 1]. -/
theorem command_action_bounded_witness :
    ((∀ (s : Unit) (a : Fin 1 → ℝ), (((), a) : Unit × (Fin 1 → ℝ)).2 = a) ∧
      (1 : ℝ) = 1 ∧ (-1 : ℝ) ≤ 0 ∧ (0 : ℝ) ≤ 1) ∧
    ∀ v ∈ command Unit 1 1 1 1 1 (fun _ a => ((), a)) (fun _ => 0) 1 false
        false (95 / 100) 0 1 false (fun _ _ => 1) 1 (-1) () (fun a => a)
        (fun _ _ => 0) (fun _ _ _ => 0),
      ∀ i, (-1 : ℝ) ≤ v i ∧ v i ≤ 1 :=
  ⟨⟨fun _ _ => rfl, rfl, by norm_num, by norm_num⟩,
    command_action_bounded Unit 1 1 1 1 1 (fun _ a => ((), a)) (fun _ => 0) 1
      false false (95 / 100) 0 1 false (fun _ _ => 1) 1 (-1) () (fun a => a)
      (fun _ _ => 0) (fun _ _ _ => 0) (fun _ _ => rfl) rfl (by norm_num)
      (by norm_num)⟩

theorem scaleCost_vec :
    (compute_total_cost_batch Unit 1 1 1 1 (fun _ a => ((), a)) (fun _ => 0) 2
        false (95/100) 0 1 false (fun _ _ => 1) 1 (-1) ()
        (torchRollNeg1 (fun _ _ => 1)) (fun _ _ _ => 0)).1 =
      fun _ => 1 := by
  funext k
  fin_cases k
  show (compute_total_cost_batch Unit 1 1 1 1 (fun _ a => ((), a))
      (fun _ => 0) 2 false (95/100) 0 1 false (fun _ _ => 1) 1 (-1) ()
      (torchRollNeg1 (fun _ _ => 1)) (fun _ _ _ => 0)).1 0 = 1
  simp [compute_total_cost_batch, compute_rollout_costs, rolloutLoop,
    stepInput, perturbedClipped, bound_action, torchRollNeg1,
    Fin.sum_univ_one]
  norm_num

theorem scaleNoise0 :
    (compute_total_cost_batch Unit 1 1 1 1 (fun _ a => ((), a))
        (fun _ => 0) 2 false (95/100) 0 1 false (fun _ _ => 1) 1 (-1) ()
        (torchRollNeg1 (fun _ _ => 1)) (fun _ _ _ => 0)).2 0 0 0 = 1 := by
  simp [compute_total_cost_batch, compute_rollout_costs, rolloutLoop,
    stepInput, perturbedClipped, bound_action, torchRollNeg1]
  norm_num

theorem scaleOmega : omegaWeights (fun _ : Fin 1 => (1 : ℝ)) 1 0 = 1 := by
  rw [omegaWeights]
  rw [show torchMin (fun _ : Fin 1 => (1 : ℝ)) = 1 from torchMin_one _]
  simp [etaSum, ensure_non_zero, torchMin_one, Fin.sum_univ_one]

/-- Claim C2 counterexample: the bounds invariant is false of the code on
cycles with `u_scale ≠ 1`. With `u_scale = 2`, bounds `[-1, 1]`,
`K = T = nu = u_per_command = 1`, `U = [1]`, zero noise, zero running cost
and identity-action dynamics, the rollout records the scaled action
`2 * clip(1) = 2` at line 245, line 284 recomputes the noise as `2 - 1 = 1`,
the single sample's weight is `1`, and `command()` returns the action value
`2`, which exceeds `u_max = 1`. -/
theorem command_scale_exceeds_bounds :
    ∃ v, command Unit 1 1 1 1 1 (fun _ a => ((), a)) (fun _ => 0) 2 false
        false (95/100) 0 1 false (fun _ _ => 1) 1 (-1) () (fun a => a)
        (fun _ _ => 1) (fun _ _ _ => 0) = [v] ∧ v 0 = 2 ∧ ¬ v 0 ≤ 1 := by
  refine ⟨fun i : Fin 1 =>
    torchRollNeg1 (fun _ _ => 1 : Fin 1 → Fin 1 → ℝ) 0 i +
      ∑ k : Fin 1, omegaWeights (compute_total_cost_batch Unit 1 1 1 1
          (fun _ a => ((), a)) (fun _ => 0) 2 false (95/100) 0 1 false
          (fun _ _ => 1) 1 (-1) () (torchRollNeg1 (fun _ _ => 1))
          (fun _ _ _ => 0)).1 1 k *
        (compute_total_cost_batch Unit 1 1 1 1 (fun _ a => ((), a))
          (fun _ => 0) 2 false (95/100) 0 1 false (fun _ _ => 1) 1 (-1) ()
          (torchRollNeg1 (fun _ _ => 1)) (fun _ _ _ => 0)).2 k 0 i,
    ?_, ?_, ?_⟩
  · rfl
  · show torchRollNeg1 (fun _ _ => 1 : Fin 1 → Fin 1 → ℝ) 0 0 + _ = 2
    rw [Fin.sum_univ_one, scaleNoise0, scaleCost_vec, scaleOmega,
      show torchRollNeg1 (fun _ _ => 1 : Fin 1 → Fin 1 → ℝ) 0 0 = 1 from rfl]
    norm_num
  · show ¬ (torchRollNeg1 (fun _ _ => 1 : Fin 1 → Fin 1 → ℝ) 0 0 + _ ≤ 1)
    rw [Fin.sum_univ_one, scaleNoise0, scaleCost_vec, scaleOmega,
      show torchRollNeg1 (fun _ _ => 1 : Fin 1 → Fin 1 → ℝ) 0 0 = 1 from rfl]
    norm_num

theorem torchMin_two (c : Fin 2 → ℝ) : torchMin c = min (c 0) (c 1) := by
  apply le_antisymm
  · exact le_min (torchMin_le c 0) (torchMin_le c 1)
  · apply Finset.le_inf'
    intro k _
    fin_cases k
    · exact min_le_left _ _
    · exact min_le_right _ _

theorem exampleCost_vec :
    (compute_total_cost_batch Unit 1 2 1 1 (fun _ a => ((), a)) (fun _ => 0) 1
        true (95/100) 0 1 false (fun _ _ => 1) 1 (-1) ()
        (torchRollNeg1 (fun _ _ => 1/2)) (fun _ _ _ => 0)).1 = ![0, -(1/4)] := by
  funext k
  fin_cases k
  · show (compute_total_cost_batch Unit 1 2 1 1 (fun _ a => ((), a))
        (fun _ => 0) 1 true (95/100) 0 1 false (fun _ _ => 1) 1 (-1) ()
        (torchRollNeg1 (fun _ _ => 1/2)) (fun _ _ _ => 0)).1 0 = 0
    simp [compute_total_cost_batch, compute_rollout_costs, rolloutLoop,
      stepInput, perturbedClipped, bound_action, torchRollNeg1,
      Fin.sum_univ_one]
    norm_num
  · show (compute_total_cost_batch Unit 1 2 1 1 (fun _ a => ((), a))
        (fun _ => 0) 1 true (95/100) 0 1 false (fun _ _ => 1) 1 (-1) ()
        (torchRollNeg1 (fun _ _ => 1/2)) (fun _ _ _ => 0)).1 1 = -(1/4)
    simp [compute_total_cost_batch, compute_rollout_costs, rolloutLoop,
      stepInput, perturbedClipped, bound_action, torchRollNeg1,
      Fin.sum_univ_one]
    norm_num

theorem exampleNoise0 :
    (compute_total_cost_batch Unit 1 2 1 1 (fun _ a => ((), a))
        (fun _ => 0) 1 true (95/100) 0 1 false (fun _ _ => 1) 1 (-1) ()
        (torchRollNeg1 (fun _ _ => 1/2)) (fun _ _ _ => 0)).2 0 0 0 = 0 := by
  simp [compute_total_cost_batch, compute_rollout_costs, rolloutLoop,
    stepInput, perturbedClipped, bound_action, torchRollNeg1]
  norm_num

theorem exampleNoise1 :
    (compute_total_cost_batch Unit 1 2 1 1 (fun _ a => ((), a))
        (fun _ => 0) 1 true (95/100) 0 1 false (fun _ _ => 1) 1 (-1) ()
        (torchRollNeg1 (fun _ _ => 1/2)) (fun _ _ _ => 0)).2 1 0 0 = -(1/2) := by
  simp [compute_total_cost_batch, compute_rollout_costs, rolloutLoop,
    stepInput, perturbedClipped, bound_action, torchRollNeg1]

theorem exampleEta : etaSum ![(0 : ℝ), -(1/4)] 1 = Real.exp (-(1/4)) + 1 := by
  rw [etaSum, Fin.sum_univ_two]
  simp [ensure_non_zero, torchMin_two]

theorem exampleOmega1 : omegaWeights ![(0 : ℝ), -(1/4)] 1 1 =
    1 / (Real.exp (-(1/4)) + 1) := by
  rw [omegaWeights, exampleEta]
  simp [ensure_non_zero, torchMin_two]

/-- Claim C3 fails on the code: a concrete cycle (K = 2, T = 1, nu = 1,
`sample_null_action` on, zero running cost, identity-action dynamics,
`U = [1/2]`, zero noise) in which the cost of the last sample is
`-1/4 <= 0.01` — so the claim requires the returned action to be the exact
zero vector — yet `command()` returns a single action value that is nonzero:
line 199 `action = self.U[: self.u_per_command]` re-extracts the action from
the updated nominal sequence, discarding the zero vector assigned to `action`
at lines 178-179. -/
theorem command_null_action_returns_nonzero :
    (compute_total_cost_batch Unit 1 2 1 1 (fun _ a => ((), a)) (fun _ => 0) 1
        true (95/100) 0 1 false (fun _ _ => 1) 1 (-1) ()
        (torchRollNeg1 (fun _ _ => 1/2)) (fun _ _ _ => 0)).1 1 ≤ 0.01 ∧
    ∃ v, command Unit 1 2 1 1 1 (fun _ a => ((), a)) (fun _ => 0) 1 true false
        (95/100) 0 1 false (fun _ _ => 1) 1 (-1) () (fun a => a)
        (fun _ _ => 1/2) (fun _ _ _ => 0) = [v] ∧ v 0 ≠ 0 := by
  constructor
  · rw [exampleCost_vec]
    norm_num
  · refine ⟨fun i : Fin 1 =>
      torchRollNeg1 (fun _ _ => 1/2 : Fin 1 → Fin 1 → ℝ) 0 i +
        ∑ k : Fin 2, omegaWeights (compute_total_cost_batch Unit 1 2 1 1
            (fun _ a => ((), a)) (fun _ => 0) 1 true (95/100) 0 1 false
            (fun _ _ => 1) 1 (-1) () (torchRollNeg1 (fun _ _ => 1/2))
            (fun _ _ _ => 0)).1 1 k *
          (compute_total_cost_batch Unit 1 2 1 1 (fun _ a => ((), a))
            (fun _ => 0) 1 true (95/100) 0 1 false (fun _ _ => 1) 1 (-1) ()
            (torchRollNeg1 (fun _ _ => 1/2)) (fun _ _ _ => 0)).2 k 0 i,
      ?_, ?_⟩
    · rfl
    · show torchRollNeg1 (fun _ _ => 1/2 : Fin 1 → Fin 1 → ℝ) 0 0 + _ ≠ 0
      rw [Fin.sum_univ_two, exampleNoise0, exampleNoise1, exampleCost_vec]
      have hrollv :
          torchRollNeg1 (fun _ _ => 1/2 : Fin 1 → Fin 1 → ℝ) 0 0 = 1/2 := rfl
      rw [hrollv, exampleOmega1, mul_zero, zero_add]
      have he : (0 : ℝ) < Real.exp (-(1/4)) := Real.exp_pos _
      have h1 : (1 : ℝ) / (Real.exp (-(1/4)) + 1) < 1 :=
        (div_lt_one (by linarith)).mpr (by linarith)
      have h2 : (0 : ℝ) < 1 / (Real.exp (-(1/4)) + 1) := by positivity
      intro hcontra
      nlinarith

/-- Claim C7 fails on the code: the output of `command()` does not depend on
the filter at all — with `filter_u` enabled the returned list is the same for
every smoothing function and equal to the output with filtering disabled,
because line 199 `action = self.U[: self.u_per_command]` re-extracts the
returned action from the updated, UNfiltered nominal sequence `self.U`,
discarding the Savitzky-Golay-filtered `action` computed at lines 184-196. -/
theorem command_filter_discarded (σ : Type) (M K T nu uPerCommand : ℕ)
    [NeZero M] [NeZero K] [NeZero T]
    (dyn : σ → (Fin nu → ℝ) → σ × (Fin nu → ℝ)) (running_cost : σ → ℝ)
    (u_scale : ℝ) (nullAct : Bool) (var_discount var_cost lam : ℝ)
    (noise_abs_cost : Bool) (sigma_inv : Fin nu → Fin nu → ℝ)
    (u_max u_min : ℝ) (s0 : σ)
    (sgFilter1 sgFilter2 : (Fin T → Fin nu → ℝ) → Fin T → Fin nu → ℝ)
    (U0 : Fin T → Fin nu → ℝ) (noise : Fin K → Fin T → Fin nu → ℝ) :
    command σ M K T nu uPerCommand dyn running_cost u_scale nullAct true
        var_discount var_cost lam noise_abs_cost sigma_inv u_max u_min s0
        sgFilter1 U0 noise =
      command σ M K T nu uPerCommand dyn running_cost u_scale nullAct false
        var_discount var_cost lam noise_abs_cost sigma_inv u_max u_min s0
        sgFilter2 U0 noise := rfl

/-- Witness for C7 at a concrete one-sample, one-step cycle, comparing a
filter that replaces everything by the constant 7 against no filtering. -/
theorem command_filter_discarded_witness :
    command Unit 1 1 1 1 1 (fun _ a => ((), a)) (fun _ => 0) 1 false true
        (95/100) 0 1 false (fun _ _ => 1) 1 (-1) () (fun _ => fun _ _ => 7)
        (fun _ _ => 0) (fun _ _ _ => 0) =
      command Unit 1 1 1 1 1 (fun _ a => ((), a)) (fun _ => 0) 1 false false
        (95/100) 0 1 false (fun _ _ => 1) 1 (-1) () (fun a => a)
        (fun _ _ => 0) (fun _ _ _ => 0) :=
  command_filter_discarded Unit 1 1 1 1 1 (fun _ a => ((), a)) (fun _ => 0) 1
    false (95/100) 0 1 false (fun _ _ => 1) 1 (-1) ()
    (fun _ => fun _ _ => 7) (fun a => a) (fun _ _ => 0) (fun _ _ _ => 0)


/-- Value of a torch float tensor entry for the non-finite analysis of the
weight computation: a finite real (rounding is not modelled; the claim only
concerns propagation of non-finite values), positive infinity, negative
infinity, or NaN, with the IEEE-754 semantics torch implements. -/
inductive FV where
  | fin : ℝ → FV
  | pinf : FV
  | ninf : FV
  | nan : FV

def FV.isFinite : FV → Bool
  | .fin _ => true
  | _ => false

def FV.neg : FV → FV
  | .fin x => .fin (-x)
  | .pinf => .ninf
  | .ninf => .pinf
  | .nan => .nan

def FV.add : FV → FV → FV
  | .nan, _ => .nan
  | _, .nan => .nan
  | .pinf, .ninf => .nan
  | .ninf, .pinf => .nan
  | .pinf, _ => .pinf
  | _, .pinf => .pinf
  | .ninf, _ => .ninf
  | _, .ninf => .ninf
  | .fin x, .fin y => .fin (x + y)

noncomputable def FV.mul : FV → FV → FV
  | .nan, _ => .nan
  | _, .nan => .nan
  | .fin x, .fin y => .fin (x * y)
  | .pinf, .pinf => .pinf
  | .pinf, .ninf => .ninf
  | .ninf, .pinf => .ninf
  | .ninf, .ninf => .pinf
  | .fin x, .pinf => if 0 < x then .pinf else if x < 0 then .ninf else .nan
  | .pinf, .fin x => if 0 < x then .pinf else if x < 0 then .ninf else .nan
  | .fin x, .ninf => if 0 < x then .ninf else if x < 0 then .pinf else .nan
  | .ninf, .fin x => if 0 < x then .ninf else if x < 0 then .pinf else .nan

noncomputable def FV.div : FV → FV → FV
  | .nan, _ => .nan
  | _, .nan => .nan
  | .fin x, .fin y =>
      if y = 0 then (if x = 0 then .nan else if 0 < x then .pinf else .ninf)
      else .fin (x / y)
  | .fin _, .pinf => .fin 0
  | .fin _, .ninf => .fin 0
  | .pinf, .fin y => if 0 ≤ y then .pinf else .ninf
  | .ninf, .fin y => if 0 ≤ y then .ninf else .pinf
  | .pinf, .pinf => .nan
  | .pinf, .ninf => .nan
  | .ninf, .pinf => .nan
  | .ninf, .ninf => .nan

noncomputable def FV.exp : FV → FV
  | .fin x => .fin (Real.exp x)
  | .pinf => .pinf
  | .ninf => .fin 0
  | .nan => .nan

noncomputable def FV.min2 : FV → FV → FV
  | .nan, _ => .nan
  | _, .nan => .nan
  | .ninf, _ => .ninf
  | _, .ninf => .ninf
  | .pinf, b => b
  | a, .pinf => a
  | .fin x, .fin y => .fin (min x y)

noncomputable def fvMin (cost : List FV) : FV := cost.foldl FV.min2 FV.pinf

def fvSum (l : List FV) : FV := l.foldl FV.add (FV.fin 0)

noncomputable def fvEnsureNonZero (cost : List FV) (beta factor : FV) :
    List FV :=
  cost.map fun c => FV.exp (FV.mul (FV.neg factor) (FV.add c (FV.neg beta)))

noncomputable def fvEta (cost : List FV) (lam : ℝ) : FV :=
  fvSum (fvEnsureNonZero cost (fvMin cost) (FV.fin (1 / lam)))

noncomputable def fvOmega (cost : List FV) (lam : ℝ) : List FV :=
  (fvEnsureNonZero cost (fvMin cost) (FV.fin (1 / lam))).map
    fun c => FV.mul (FV.div (FV.fin 1) (fvEta cost lam)) c

noncomputable def fvUpdateEntry (u : FV) (omega noise : List FV) : FV :=
  FV.add u (fvSum (List.zipWith FV.mul omega noise))

-- basic lemmas
theorem FV.add_nan_right (a : FV) : FV.add a FV.nan = FV.nan := by
  cases a <;> rfl

theorem FV.add_nan_left (a : FV) : FV.add FV.nan a = FV.nan := by
  cases a <;> rfl

theorem FV.mul_nan_right (a : FV) : FV.mul a FV.nan = FV.nan := by
  cases a <;> rfl

theorem FV.mul_nan_left (a : FV) : FV.mul FV.nan a = FV.nan := by
  cases a <;> rfl

theorem FV.min2_nan_left (a : FV) : FV.min2 FV.nan a = FV.nan := by
  cases a <;> rfl

theorem FV.min2_nan_right (a : FV) : FV.min2 a FV.nan = FV.nan := by
  cases a <;> rfl

theorem FV.min2_ne_nan (a b : FV) (ha : a ≠ FV.nan) (hb : b ≠ FV.nan) :
    FV.min2 a b ≠ FV.nan := by
  cases a <;> cases b <;> simp_all [FV.min2]

theorem FV.min2_ninf_right (a : FV) (ha : a ≠ FV.nan) :
    FV.min2 a FV.ninf = FV.ninf := by
  cases a <;> simp_all [FV.min2]

theorem FV.min2_ninf_left (b : FV) (hb : b ≠ FV.nan) :
    FV.min2 FV.ninf b = FV.ninf := by
  cases b <;> simp_all [FV.min2]

theorem foldl_add_nan (l : List FV) : l.foldl FV.add FV.nan = FV.nan := by
  induction l with
  | nil => rfl
  | cons x xs ih => simpa [FV.add_nan_left] using ih

theorem foldl_add_eq_nan (l : List FV) :
    ∀ a, FV.nan ∈ l → l.foldl FV.add a = FV.nan := by
  induction l with
  | nil => intro a h; cases h
  | cons x xs ih =>
    intro a h
    rcases List.mem_cons.mp h with rfl | hx
    · show xs.foldl FV.add (FV.add a FV.nan) = _
      rw [FV.add_nan_right]
      exact foldl_add_nan xs
    · exact ih _ hx

theorem fvSum_nan_of_mem (l : List FV) (h : FV.nan ∈ l) : fvSum l = FV.nan :=
  foldl_add_eq_nan l (FV.fin 0) h

theorem foldl_min2_nan (l : List FV) : l.foldl FV.min2 FV.nan = FV.nan := by
  induction l with
  | nil => rfl
  | cons x xs ih => simpa [FV.min2_nan_left] using ih

theorem foldl_min2_eq_nan (l : List FV) :
    ∀ a, FV.nan ∈ l → l.foldl FV.min2 a = FV.nan := by
  induction l with
  | nil => intro a h; cases h
  | cons x xs ih =>
    intro a h
    rcases List.mem_cons.mp h with rfl | hx
    · show xs.foldl FV.min2 (FV.min2 a FV.nan) = _
      rw [FV.min2_nan_right]
      exact foldl_min2_nan xs
    · exact ih _ hx

theorem fvMin_nan_of_mem (l : List FV) (h : FV.nan ∈ l) : fvMin l = FV.nan :=
  foldl_min2_eq_nan l FV.pinf h

theorem foldl_min2_ninf (l : List FV) (hl : ∀ x ∈ l, x ≠ FV.nan) :
    l.foldl FV.min2 FV.ninf = FV.ninf := by
  induction l with
  | nil => rfl
  | cons x xs ih =>
    show xs.foldl FV.min2 (FV.min2 FV.ninf x) = _
    rw [FV.min2_ninf_left x (hl x (List.mem_cons_self x xs))]
    exact ih fun y hy => hl y (List.mem_cons_of_mem x hy)

theorem foldl_min2_eq_ninf (l : List FV) :
    ∀ a, a ≠ FV.nan → FV.ninf ∈ l → (∀ x ∈ l, x ≠ FV.nan) →
      l.foldl FV.min2 a = FV.ninf := by
  induction l with
  | nil => intro a _ h; cases h
  | cons x xs ih =>
    intro a ha h hl
    rcases List.mem_cons.mp h with rfl | hx
    · show xs.foldl FV.min2 (FV.min2 a FV.ninf) = _
      rw [FV.min2_ninf_right a ha]
      exact foldl_min2_ninf xs fun y hy => hl y (List.mem_cons_of_mem _ hy)
    · exact ih (FV.min2 a x)
        (FV.min2_ne_nan a x ha (hl x (List.mem_cons_self x xs))) hx
        fun y hy => hl y (List.mem_cons_of_mem x hy)

theorem fvMin_ninf (l : List FV) (h : FV.ninf ∈ l)
    (hl : ∀ x ∈ l, x ≠ FV.nan) : fvMin l = FV.ninf :=
  foldl_min2_eq_ninf l FV.pinf (by simp) h hl

theorem foldl_min2_pinf (l : List FV) (hl : ∀ x ∈ l, x = FV.pinf) :
    l.foldl FV.min2 FV.pinf = FV.pinf := by
  induction l with
  | nil => rfl
  | cons x xs ih =>
    show xs.foldl FV.min2 (FV.min2 FV.pinf x) = _
    rw [hl x (List.mem_cons_self x xs)]
    exact ih fun y hy => hl y (List.mem_cons_of_mem x hy)

theorem nan_mem_ensure (cost : List FV) (f : FV)
    (hne : cost ≠ []) (hnf : ∀ c ∈ cost, c.isFinite = false) :
    FV.nan ∈ fvEnsureNonZero cost (fvMin cost) f := by
  by_cases hnan : FV.nan ∈ cost
  · have hb : fvMin cost = FV.nan := fvMin_nan_of_mem cost hnan
    obtain ⟨c, hc⟩ := List.exists_mem_of_ne_nil cost hne
    refine List.mem_map.mpr ⟨c, hc, ?_⟩
    rw [hb]
    show FV.exp (FV.mul (FV.neg f) (FV.add c (FV.neg FV.nan))) = FV.nan
    rw [show FV.neg FV.nan = FV.nan from rfl, FV.add_nan_right,
      FV.mul_nan_right]
    rfl
  · by_cases hninf : FV.ninf ∈ cost
    · have hnonan : ∀ x ∈ cost, x ≠ FV.nan := fun x hx hxn =>
        hnan (hxn ▸ hx)
      have hb : fvMin cost = FV.ninf := fvMin_ninf cost hninf hnonan
      refine List.mem_map.mpr ⟨FV.ninf, hninf, ?_⟩
      rw [hb]
      show FV.exp (FV.mul (FV.neg f) (FV.add FV.ninf (FV.neg FV.ninf))) = FV.nan
      rw [show FV.add FV.ninf (FV.neg FV.ninf) = FV.nan from rfl,
        FV.mul_nan_right]
      rfl
    · have hp : ∀ c ∈ cost, c = FV.pinf := by
        intro c hc
        cases c with
        | fin x => exact absurd (hnf _ hc) (by simp [FV.isFinite])
        | pinf => rfl
        | ninf => exact absurd hc hninf
        | nan => exact absurd hc hnan
      have hb : fvMin cost = FV.pinf := foldl_min2_pinf cost hp
      obtain ⟨c, hc⟩ := List.exists_mem_of_ne_nil cost hne
      refine List.mem_map.mpr ⟨c, hc, ?_⟩
      rw [hb, hp c hc]
      show FV.exp (FV.mul (FV.neg f) (FV.add FV.pinf (FV.neg FV.pinf))) = FV.nan
      rw [show FV.add FV.pinf (FV.neg FV.pinf) = FV.nan from rfl,
        FV.mul_nan_right]
      rfl

theorem fvEta_eq_nan (cost : List FV) (lam : ℝ)
    (hne : cost ≠ []) (hnf : ∀ c ∈ cost, c.isFinite = false) :
    fvEta cost lam = FV.nan :=
  fvSum_nan_of_mem _ (nan_mem_ensure cost (FV.fin (1 / lam)) hne hnf)

/-- Claim C9 amended: if the cost vector entering the weight computation is
entirely non-finite (all NaN or infinities), then `eta` is NaN — hence
non-finite, as the claim's detection premise says — but `command()` performs
no check on `eta` and signals no error: every weight `omega` becomes NaN, and
the action update `U[t] += sum(omega * noise)` then produces NaN action
entries instead of an error. -/
theorem eta_nonfinite_no_error (cost : List FV) (lam : ℝ)
    (hne : cost ≠ []) (hnf : ∀ c ∈ cost, c.isFinite = false) :
    (fvEta cost lam).isFinite = false ∧ fvEta cost lam = FV.nan ∧
      ∀ w ∈ fvOmega cost lam, w = FV.nan := by
  have he := fvEta_eq_nan cost lam hne hnf
  refine ⟨by rw [he]; rfl, he, ?_⟩
  intro w hw
  obtain ⟨c, _, rfl⟩ := List.mem_map.mp hw
  rw [he, show FV.div (FV.fin 1) FV.nan = FV.nan from rfl, FV.mul_nan_left]

/-- Witness for the amended C9 at the concrete all-non-finite cost vector
`[+inf, -inf]`, `lambda = 1`. -/
theorem eta_nonfinite_no_error_witness :
    (([FV.pinf, FV.ninf] : List FV) ≠ [] ∧
      ∀ c ∈ ([FV.pinf, FV.ninf] : List FV), c.isFinite = false) ∧
    ((fvEta [FV.pinf, FV.ninf] 1).isFinite = false ∧
      fvEta [FV.pinf, FV.ninf] 1 = FV.nan ∧
      ∀ w ∈ fvOmega [FV.pinf, FV.ninf] 1, w = FV.nan) :=
  ⟨⟨by simp, by
      intro c hc
      rcases List.mem_cons.mp hc with rfl | hc2
      · rfl
      · rcases List.mem_cons.mp hc2 with rfl | h3
        · rfl
        · exact absurd h3 (List.not_mem_nil c)⟩,
    eta_nonfinite_no_error [FV.pinf, FV.ninf] 1 (by simp) (by
      intro c hc
      rcases List.mem_cons.mp hc with rfl | hc2
      · rfl
      · rcases List.mem_cons.mp hc2 with rfl | h3
        · rfl
        · exact absurd h3 (List.not_mem_nil c))⟩

/-- Claim C9 counterexample: for the entirely non-finite cost vector
`[NaN, NaN]` the weight pipeline of `command()` (mppi.py lines 166-175)
produces `eta = NaN` and weights `[NaN, NaN]`, and the updated action entry
`U[t][i] + sum_k omega_k * noise_k` is NaN: the code returns an action
containing NaN and signals no invalid-cost-distribution error, contrary to
the claim. -/
theorem fv_nan_cost_gives_nan_action :
    fvEta [FV.nan, FV.nan] 1 = FV.nan ∧
    fvOmega [FV.nan, FV.nan] 1 = [FV.nan, FV.nan] ∧
    fvUpdateEntry (FV.fin 0) (fvOmega [FV.nan, FV.nan] 1)
      [FV.fin 0, FV.fin 0] = FV.nan :=
  ⟨rfl, rfl, rfl⟩

end Mppi

